import Mathlib

/-!
Verification of the iron-cage SDK against its specification.

This file shallowly embeds the Python sources under `src/module/` together
with spec-modelled definitions of the native gateway core (budget tracker,
circuit breaker, PII scanner) whose compiled implementation is not part of
the repository's Python sources.

Conventions:
* Python strings are modelled as `String` or `List Char`.
* Side effects (`print`, network calls) are modelled as an explicit list of
  `Effect` values returned next to the result, so "contacts no server" is the
  absence of a `network` effect.
* Money amounts are modelled as `Nat` (whole cents); floats that are exactly
  representable (0.0) are modelled as rationals or naturals.
* Fallible Python code is modelled with `Except`.
-/

namespace IronCage

/-- An observable side effect of a Python call: a console print or a network
contact.  The stub classes in `iron_runtime/python` only ever print. -/
inductive Effect where
  | printed (msg : String)
  | network (url : String)
deriving DecidableEq, Repr

/-- `true` when the effect list contacts no server (no `network` effect). -/
def noNetwork (es : List Effect) : Bool :=
  es.all fun e => match e with
    | .network _ => false
    | .printed _ => true

/-! ## Stub `Runtime` — `src/module/iron_runtime/python/__init__.py` and
`src/module/iron_runtime/python/iron_cage/__init__.py` (identical bodies).
These are the classes constructed when `from iron_cage.iron_cage import ...`
raises `ImportError` (the compiled native module is unavailable). -/

/-- Values appearing in the metrics dict of the stub `Runtime.get_metrics`. -/
inductive MetricValue where
  | str (v : String)
  | num (v : ℚ)
deriving DecidableEq, Repr

/-- The stub `Runtime` object: `__init__` stores `budget` and `verbose`. -/
structure Runtime where
  budget : ℚ
  verbose : Bool
deriving DecidableEq, Repr

/-- `Runtime.__init__(budget, verbose=False)` of the stub class: stores the
fields and prints; it never raises and never contacts a server. -/
def Runtime.init (budget : ℚ) (verbose : Bool) : Runtime × List Effect :=
  ({ budget := budget, verbose := verbose },
   [.printed ("[STUB] Runtime initialized with budget=$" ++ toString budget)])

/-- Stub `Runtime.start_agent(script_path)`: prints and returns the constant
string `"stub-agent-id"`. -/
def Runtime.start_agent (_r : Runtime) (script_path : String) :
    String × List Effect :=
  ("stub-agent-id", [.printed ("[STUB] Starting agent from " ++ script_path)])

/-- Stub `Runtime.stop_agent(agent_id)`: prints and returns `None`. -/
def Runtime.stop_agent (_r : Runtime) (agent_id : String) :
    Unit × List Effect :=
  ((), [.printed ("[STUB] Stopping agent " ++ agent_id)])

/-- Stub `Runtime.get_metrics(agent_id)`: prints and returns the dict
`{"agent_id": agent_id, "status": "Running", "budget_spent": 0.0,
"pii_detections": 0}` (modelled as an association list in insertion order). -/
def Runtime.get_metrics (_r : Runtime) (agent_id : String) :
    List (String × MetricValue) × List Effect :=
  ([("agent_id", .str agent_id),
    ("status", .str "Running"),
    ("budget_spent", .num 0),
    ("pii_detections", .num 0)],
   [.printed ("[STUB] Getting metrics for " ++ agent_id)])

/-! ## Stub `LlmRouter` — `src/module/iron_runtime/python/iron_cage/__init__.py`,
lines 53–92. -/

/-- The stub `LlmRouter` object: `__init__` stores `_api_key`, `_server_url`,
`_port = 8000` and `_running = True` (`cache_ttl_seconds` is accepted and
discarded). -/
structure LlmRouter where
  api_key : String
  server_url : String
  port : Nat
  running : Bool
deriving DecidableEq, Repr

/-- `LlmRouter.__init__(api_key, server_url, cache_ttl_seconds=300)` of the
stub class: always succeeds (never raises `Unavailable` or anything else),
prints, contacts no server. -/
def LlmRouter.init (api_key server_url : String) (_cache_ttl_seconds : Nat) :
    LlmRouter × List Effect :=
  ({ api_key := api_key, server_url := server_url, port := 8000,
     running := true },
   [.printed ("[STUB] LlmRouter initialized for " ++ server_url)])

/-- Property `LlmRouter.base_url`: `f"http://127.0.0.1:{self._port}/v1"`. -/
def LlmRouter.base_url (r : LlmRouter) : String :=
  "http://127.0.0.1:" ++ toString r.port ++ "/v1"

/-- Property `LlmRouter.is_running`: returns `self._running`. -/
def LlmRouter.is_running (r : LlmRouter) : Bool :=
  r.running

/-- `LlmRouter.stop()`: sets `_running = False` and prints. -/
def LlmRouter.stop (r : LlmRouter) : LlmRouter × List Effect :=
  ({ r with running := false }, [.printed "[STUB] LlmRouter stopped"])

/-- `LlmRouter.__exit__`: the context-manager exit calls `self.stop()`. -/
def LlmRouter.exitCM (r : LlmRouter) : LlmRouter × List Effect :=
  r.stop

/-- The operations a caller can perform on a stub `LlmRouter` after
construction (the four properties read state; only `stop` writes it). -/
inductive RouterOp where
  | get_base_url
  | get_api_key
  | get_port
  | get_is_running
  | stop
deriving DecidableEq, Repr

/-- State transition of one `RouterOp` (properties leave the object
unchanged; `stop` clears `_running`). -/
def routerStep (r : LlmRouter) : RouterOp → LlmRouter
  | .stop => r.stop.1
  | _ => r

/-- Run a sequence of operations against a stub `LlmRouter`. -/
def routerRun (r : LlmRouter) (ops : List RouterOp) : LlmRouter :=
  ops.foldl routerStep r

/-! ## Budget Tracker (spec-modelled)

Modelled from the spec: the Budget Tracker lives in the compiled native
gateway core, which is not among the repository's Python sources; only its
callers (`Runtime`, `LlmRouter`) are under `src/`.  The model follows §3
"Budget State" and §4.3 "Budget Tracker" of the spec: ceiling fixed at
session creation, spent-so-far monotonically increasing, `reserve` rejected
once spent-so-far has reached the ceiling or the estimate would exceed it,
`settle` adding the actual cost.  Amounts are whole cents (`Nat`). -/

/-- Budget State: ceiling (fixed at session creation) and spent-so-far. -/
structure BudgetState where
  ceiling : Nat
  spent : Nat
deriving DecidableEq, Repr

/-- Reply of `reserve(estimate)`. -/
inductive BudgetReply where
  | Allow
  | Reject
deriving DecidableEq, Repr

/-- Modelled from the spec: `reserve(estimate)` pre-checks that
spent-so-far plus the estimate does not exceed the ceiling, and once
spent-so-far ≥ ceiling every call is rejected (spec §3 invariant, §4.3,
§8). -/
def reserve (s : BudgetState) (estimate : Nat) : BudgetReply :=
  if s.ceiling ≤ s.spent ∨ s.ceiling < s.spent + estimate then .Reject
  else .Allow

/-- Modelled from the spec: `settle(actualUsage)` converts usage to a cost
and adds it to spent-so-far; it never decrements it (§4.3). -/
def settle (s : BudgetState) (cost : Nat) : BudgetState :=
  { s with spent := s.spent + cost }

/-- One budget operation of a session's lifetime. -/
inductive BudgetOp where
  | reserveOp (estimate : Nat)
  | settleOp (cost : Nat)
deriving DecidableEq, Repr

/-- A `reserve` call never mutates budget state; a `settle` adds its cost. -/
def budgetStep (s : BudgetState) : BudgetOp → BudgetState
  | .reserveOp _ => s
  | .settleOp c => settle s c

/-- Run a sequence of settle/reserve operations over a session's budget. -/
def budgetRun (s : BudgetState) (ops : List BudgetOp) : BudgetState :=
  ops.foldl budgetStep s

/-! ## Circuit Breaker (spec-modelled)

Modelled from the spec: the per-provider Circuit Breaker lives in the
compiled native gateway core, absent from the Python sources.  The model
follows §4.5: three states Closed/Open/HalfOpen; consecutive failures
counted in Closed; at `threshold` consecutive failures the breaker opens
until `now + cooldown`; Open rejects without contacting the upstream; after
the cool-down the first call transitions to HalfOpen and is let through as
the single trial; further calls during the trial are rejected.  Time is an
abstract `Nat` clock. -/

/-- Breaker configuration: failure threshold and cool-down interval. -/
structure BreakerConfig where
  threshold : Nat
  cooldown : Nat
deriving DecidableEq, Repr

/-- Circuit State per provider (spec §3): Closed tracks the
consecutive-failure count, Open the open-until timestamp, HalfOpen whether
the single trial call is in flight. -/
inductive CircuitState where
  | closed (failures : Nat)
  | opened (openUntil : Nat)
  | halfOpen (trialInFlight : Bool)
deriving DecidableEq, Repr

/-- Modelled from the spec: record an upstream failure at time `now`.  In
Closed the consecutive-failure counter increments and the breaker opens
when it reaches the threshold; a HalfOpen trial failure reopens and
restarts the cool-down. -/
def recordFailure (cfg : BreakerConfig) (now : Nat) :
    CircuitState → CircuitState
  | .closed n =>
      if cfg.threshold ≤ n + 1 then .opened (now + cfg.cooldown)
      else .closed (n + 1)
  | .halfOpen _ => .opened (now + cfg.cooldown)
  | .opened u => .opened u

/-- Modelled from the spec: record an upstream success: resets the
consecutive-failure counter; a HalfOpen trial success closes the breaker. -/
def recordSuccess : CircuitState → CircuitState
  | .closed _ => .closed 0
  | .halfOpen _ => .closed 0
  | .opened u => .opened u

/-- Modelled from the spec: the breaker gate consulted when a call arrives
at time `now`.  Returns the new state and whether the call is allowed to
reach the upstream transport.  Open rejects (returns `false`) until the
cool-down has elapsed; the first call after that becomes the single
HalfOpen trial; while the trial is in flight every other call is
rejected. -/
def gate (now : Nat) : CircuitState → CircuitState × Bool
  | .closed n => (.closed n, true)
  | .opened u =>
      if u ≤ now then (.halfOpen true, true)
      else (.opened u, false)
  | .halfOpen inFlight =>
      if inFlight then (.halfOpen true, false)
      else (.halfOpen true, true)

/-- Record a sequence of consecutive failures, one per timestamp. -/
def runFailures (cfg : BreakerConfig) (times : List Nat) (s : CircuitState) :
    CircuitState :=
  times.foldl (fun s t => recordFailure cfg t s) s

/-! ## `_load_config` — `src/module/iron_agents/lead_generator_agent/src/config.py`

The filesystem is abstracted: an absolute directory path is its list of
components (so `os.path.dirname` drops the last component and the root is
the fixed point `[]` with `dirname root = root`), and `fs p` says whether
the file `secret` + `-agent_secret.sh` exists under directory `p`.  The `while True:` loop is modelled
with explicit fuel; the claim that the loop terminates is the theorem that
`p.length + 1` units of fuel always produce an answer. -/

/-- One parent step: `os.path.dirname` on a component-list path; the root
`[]` is its own parent. -/
def dirname (p : List String) : List String :=
  p.dropLast

/-- The loop body of `_load_config`, with fuel.  `fs` tells whether the
secret file exists under a directory.  Returns `some true` when the secret
file is found (config loaded), `some false` when the root is reached
without finding it, `none` when the fuel runs out before the loop ends. -/
def load_config_loop (fs : List String → Bool) :
    Nat → List String → Option Bool
  | 0, _ => none
  | fuel + 1, p =>
      if fs p then some true
      else if dirname p = p then some false
      else load_config_loop fs fuel (dirname p)

/-- `_load_config()` starting from the directory of the script. -/
def load_config (fs : List String → Bool) (start : List String) :
    Option Bool :=
  load_config_loop fs (start.length + 1) start

/-- Iterated `dirname`: the chain of ancestors the loop visits. -/
def ancestor (p : List String) (i : Nat) : List String :=
  dirname^[i] p

/-! ## `search_leads` — `src/module/iron_agent/apollo_tools.py`, lines 10–65.

The network call `requests.post` and the body parse `response.json()` are
abstracted into a `PostOutcome`: the call can raise, or return a status
code with a response text and (when the body is consumed as JSON) either a
decode error or the list of people under the `"people"` key.  Everything
from `requests.post(...)` onward sits inside the function's `try:` block,
so a raise from either step is caught by the same `except`. -/

/-- One person record from the Apollo response, with the five fields
`search_leads` extracts (each may be JSON `null` = `none`). -/
structure ApolloPerson where
  id : Option String
  first_name : Option String
  last_name : Option String
  organization_name : Option String
  title : Option String
deriving DecidableEq, Repr

/-- Outcome of `requests.post` + `response.json()` seen by `search_leads`:
either the call raised, or it returned `status_code`, `text` and a JSON
body whose `"people"` list parses to `ok` or raises a decode error. -/
inductive PostOutcome where
  | raises (msg : String)
  | returns (status : Nat) (text : String)
      (body : Except String (List ApolloPerson))
deriving Repr

/-- Minimal `json.dumps` string escaping (backslash and double quote). -/
def jsonEscape (s : List Char) : List Char :=
  s.flatMap fun c =>
    if c = '\\' then ['\\', '\\']
    else if c = '"' then ['\\', '"']
    else [c]

/-- Render a JSON value that is either a string or `null`. -/
def jsonStrOrNull : Option String → String
  | none => "null"
  | some s => "\"" ++ String.mk (jsonEscape s.toList) ++ "\""

/-- Render one cleaned lead dict exactly as `json.dumps` does for
`{"id": ..., "first_name": ..., "last_name": ..., "organization_name": ...,
"title": ...}` (insertion order, default separators). -/
def cleanPersonJson (p : ApolloPerson) : String :=
  "\x7b\"id\": " ++ jsonStrOrNull p.id ++
  ", \"first_name\": " ++ jsonStrOrNull p.first_name ++
  ", \"last_name\": " ++ jsonStrOrNull p.last_name ++
  ", \"organization_name\": " ++ jsonStrOrNull p.organization_name ++
  ", \"title\": " ++ jsonStrOrNull p.title ++ "\x7d"

/-- Render the cleaned results array as `json.dumps` does. -/
def cleanResultsJson (ps : List ApolloPerson) : String :=
  "[" ++ String.intercalate ", " (ps.map cleanPersonJson) ++ "]"

/-- The `json.dumps({"message": ...})` string returned for an empty result
set. -/
def noLeadsJson : String :=
  "\x7b\"message\": \"0 leads found. Try broader keywords.\"\x7d"

/-- `search_leads(job_title, industry, location, quantity)` with the
network abstracted into `outcome`.  The request parameters only shape the
outbound payload, never the response handling, and the function returns a
`String` on every path: exceptions are caught and rendered as
`"System Error: ..."`. -/
def search_leads (_job_title : String) (_industry : Option String)
    (_location : Option String) (_quantity : Nat)
    (outcome : PostOutcome) : String :=
  match outcome with
  | .raises m => "System Error: " ++ m
  | .returns status text body =>
      if status ≠ 200 then
        "Apollo Search Error " ++ toString status ++ ": " ++ text
      else
        match body with
        | .error m => "System Error: " ++ m
        | .ok people =>
            if people.isEmpty then noLeadsJson
            else cleanResultsJson people

/-! ## `_parse_quantity_from_query` —
`src/module/iron_agents/lead_generator_agent/src/lead_generator_agent.py`,
lines 175–194.

The source calls `re.search` with the raw-string patterns

  `r"(?i)\\b(?:qty|quantity|q)\\s*[:=]\\s*(\\d{1,4})\\b"` and
  `r"(?i)(?:^|\\s)--(?:qty|quantity)\\s+(\\d{1,4})\\b"`.

In a Python raw string the two characters backslash-backslash stay two
characters, and the regex engine reads a doubled backslash as an escaped
literal backslash.  So where the author intended `\b` (word boundary),
`\s` (whitespace) and `\d` (digit), the compiled pattern instead demands a
literal backslash character followed by the letter `b`, `s` or `d`.  The
embedding below reproduces that compiled pattern faithfully, token by
token, with Python's leftmost search, ordered alternation and greedy
quantifiers with backtracking.  `(?i)` makes letters case-insensitive. -/

/-- Case-insensitive character comparison (the `(?i)` flag). -/
def ciEq (a b : Char) : Bool :=
  a.toLower == b.toLower

/-- One token of the compiled patterns. -/
inductive RTok where
  /-- literal character, case-sensitive (used for `\\`, `-`, …) -/
  | lit (c : Char)
  /-- literal letter under `(?i)` -/
  | litCI (c : Char)
  /-- character class such as `[:=]` -/
  | cls (cs : List Char)
  /-- `c*` under `(?i)`, greedy -/
  | starCI (c : Char)
  /-- `c+` under `(?i)`, greedy -/
  | plusCI (c : Char)
  /-- `c{lo,hi}` under `(?i)`, greedy -/
  | repCI (c : Char) (lo hi : Nat)
  /-- ordered alternation of literal words under `(?i)` -/
  | altCI (ws : List (List Char))
deriving Repr

/-- Length of the longest prefix of `s` made of (case-insensitive) `c`. -/
def countLeadCI (c : Char) : List Char → Nat
  | [] => 0
  | x :: xs => if ciEq x c then countLeadCI c xs + 1 else 0

/-- Greedy quantifier backtracking: try consuming `n` copies first, then
`n - 1`, … down to `lo`, feeding the rest of the input to `f`. -/
def tryCounts {α : Type} (f : List Char → Option α) (s : List Char)
    (lo : Nat) : Nat → Option α
  | 0 => if lo = 0 then f s else none
  | n + 1 =>
      if lo ≤ n + 1 then
        match f (s.drop (n + 1)) with
        | some a => some a
        | none => tryCounts f s lo n
      else none

/-- Match one exact word case-insensitively, returning the rest of the
input. -/
def stripWordCI : List Char → List Char → Option (List Char)
  | [], s => some s
  | _ :: _, [] => none
  | c :: cs, x :: xs => if ciEq x c then stripWordCI cs xs else none

/-- Ordered alternation with backtracking: try each word in order; on a
word match, run the continuation, and fall through to the next word when it
fails (Python's leftmost alternation). -/
def tryWords {α : Type} (f : List Char → Option α) :
    List (List Char) → List Char → Option α
  | [], _ => none
  | w :: ws, s =>
      match stripWordCI w s with
      | some rest =>
          match f rest with
          | some a => some a
          | none => tryWords f ws s
      | none => tryWords f ws s

/-- Backtracking matcher for a token list at the start of `s`; `k` is the
continuation receiving the unconsumed suffix. -/
def mrun {α : Type} : List RTok → List Char → (List Char → Option α) →
    Option α
  | [], s, k => k s
  | .lit c :: ts, s, k =>
      match s with
      | [] => none
      | x :: xs => if x = c then mrun ts xs k else none
  | .litCI c :: ts, s, k =>
      match s with
      | [] => none
      | x :: xs => if ciEq x c then mrun ts xs k else none
  | .cls cs :: ts, s, k =>
      match s with
      | [] => none
      | x :: xs => if cs.elem x then mrun ts xs k else none
  | .starCI c :: ts, s, k =>
      tryCounts (fun s' => mrun ts s' k) s 0 (countLeadCI c s)
  | .plusCI c :: ts, s, k =>
      tryCounts (fun s' => mrun ts s' k) s 1 (countLeadCI c s)
  | .repCI c lo hi :: ts, s, k =>
      tryCounts (fun s' => mrun ts s' k) s lo (min (countLeadCI c s) hi)
  | .altCI ws :: ts, s, k =>
      tryWords (fun s' => mrun ts s' k) ws s

/-- Match `pre`, then the capturing group `grp`, then `post` at the start
of `s`; returns the consumed length and the text captured by the group. -/
def matchPatAt (pre grp post : List RTok) (s : List Char) :
    Option (Nat × List Char) :=
  mrun pre s fun s1 =>
    mrun grp s1 fun s2 =>
      mrun post s2 fun s3 =>
        some (s.length - s3.length, s1.take (s1.length - s2.length))

/-- `re.search` scan: try the pattern at offsets `i, i+1, …` left to right;
returns `(start, end, group)` of the leftmost match. -/
def reSearch (pre grp post : List RTok) :
    Nat → List Char → Option (Nat × Nat × List Char)
  | i, s =>
      match matchPatAt pre grp post s with
      | some (len, g) => some (i, i + len, g)
      | none =>
          match s with
          | [] => none
          | _ :: xs => reSearch pre grp post (i + 1) xs

/-- Compiled pattern 1 before the group:
`\\b(?:qty|quantity|q)\\s*[:=]\\s*`. -/
def p1pre : List RTok :=
  [.lit '\\', .litCI 'b',
   .altCI [['q', 't', 'y'],
           ['q', 'u', 'a', 'n', 't', 'i', 't', 'y'],
           ['q']],
   .lit '\\', .starCI 's',
   .cls [':', '='],
   .lit '\\', .starCI 's']

/-- Compiled pattern 1 capturing group: `(\\d{1,4})`. -/
def p1grp : List RTok :=
  [.lit '\\', .repCI 'd' 1 4]

/-- Compiled pattern 1 after the group: `\\b`. -/
def p1post : List RTok :=
  [.lit '\\', .litCI 'b']

/-- Compiled pattern 2 core after the `(?:^|\\s)` prefix:
`--(?:qty|quantity)\\s+`. -/
def p2core : List RTok :=
  [.lit '-', .lit '-',
   .altCI [['q', 't', 'y'],
           ['q', 'u', 'a', 'n', 't', 'i', 't', 'y']],
   .lit '\\', .plusCI 's']

/-- The `\\s` alternative of pattern 2's `(?:^|\\s)` prefix: a literal
backslash then the letter `s`. -/
def p2slashS : List RTok :=
  [.lit '\\', .litCI 's']

/-- Match pattern 2 at one offset: the `(?:^|\\s)` prefix first tries the
`^` anchor (succeeds only at offset 0, consuming nothing), then the
`\\s` branch. -/
def matchP2At (atStart : Bool) (s : List Char) : Option (Nat × List Char) :=
  match (if atStart then matchPatAt p2core p1grp p1post s else none) with
  | some r => some r
  | none => matchPatAt (p2slashS ++ p2core) p1grp p1post s

/-- `re.search` scan for pattern 2 (the `^` alternative only fires at
offset 0). -/
def reSearchP2 : Nat → List Char → Option (Nat × Nat × List Char)
  | i, s =>
      match matchP2At (i == 0) s with
      | some (len, g) => some (i, i + len, g)
      | none =>
          match s with
          | [] => none
          | _ :: xs => reSearchP2 (i + 1) xs

/-- Python `str.strip()`: drop whitespace from both ends. -/
def pyStrip (s : List Char) : List Char :=
  ((s.dropWhile Char.isWhitespace).reverse.dropWhile Char.isWhitespace).reverse

/-- Digits-to-number accumulator for `pyInt`. -/
def digitsToNat (ds : List Char) : Nat :=
  ds.foldl (fun acc c => acc * 10 + (c.toNat - '0'.toNat)) 0

/-- Python `int(str)` on the captured group: accepts a string of decimal
digits (after stripping surrounding whitespace), raises `ValueError`
otherwise. -/
def pyInt (s : List Char) : Except String Nat :=
  let t := pyStrip s
  if t ≠ [] ∧ t.all Char.isDigit then .ok (digitsToNat t)
  else .error ("invalid literal for int with base 10: " ++ String.mk s)

/-- `_parse_quantity_from_query(user_query)`: strip the query, search the
two compiled patterns in order, and on a match return the query with the
matched span removed (re-stripped) together with `int(group(1))`; with no
match return `(query, None)`.  `Except` models an uncaught `ValueError`
from `int`. -/
def parse_quantity_from_query (user_query : List Char) :
    Except String (List Char × Option Nat) :=
  let query := pyStrip user_query
  match reSearch p1pre p1grp p1post 0 query with
  | some (st, en, g) => do
      let qty ← pyInt g
      pure (pyStrip (query.take st ++ query.drop en), some qty)
  | none =>
      match reSearchP2 0 query with
      | some (st, en, g) => do
          let qty ← pyInt g
          pure (pyStrip (query.take st ++ query.drop en), some qty)
      | none => .ok (query, none)

/-! ## PII Scanner (spec-modelled)

Modelled from the spec: the PII Scanner lives in the compiled native
gateway core, absent from the Python sources.  The model follows §4.4 and
§3 "PII Finding": `scan(text)` is pattern-based and best-effort, covering
at minimum email addresses and phone numbers, and produces
(category, span, original-text) findings; `redact(text, findings)`
replaces the matched spans with a placeholder and must leave text outside
the matched spans byte-for-byte unchanged.

Text is a `List Char`.  Detection works on the maximal whitespace-delimited
tokens of the text (a best-effort pattern scan): a token is an email when
it has a nonempty local part, a single `@`, and a domain containing a dot;
a token is a phone number when it consists of digits and common phone
punctuation with at least seven digits.  A finding records the category,
the span start offset, and the original text of the span. -/

/-- A character belongs to a word token iff it is not whitespace. -/
def isWordChar (c : Char) : Bool :=
  !c.isWhitespace

/-- Split text into maximal runs of characters with the same
word/whitespace classification.  Joining the runs restores the text. -/
def chunk : List Char → List (List Char)
  | [] => []
  | c :: cs =>
      match chunk cs with
      | [] => [[c]]
      | [] :: rest => [c] :: [] :: rest
      | (d :: ds) :: rest =>
          if isWordChar c == isWordChar d then (c :: d :: ds) :: rest
          else [c] :: (d :: ds) :: rest

/-- PII categories covered by the model scanner. -/
inductive PiiCategory where
  | email
  | phone
deriving DecidableEq, Repr

/-- Email pattern: nonempty local part, one `@`, domain nonempty with a
dot and no second `@`. -/
def isEmailToken (w : List Char) : Bool :=
  let p := w.span (fun c => !(c = '@'))
  match p.2 with
  | '@' :: dom =>
      !p.1.isEmpty && !dom.isEmpty && dom.elem '.' && !dom.elem '@'
  | _ => false

/-- Characters allowed in a phone-number token. -/
def isPhoneChar (c : Char) : Bool :=
  c.isDigit || c = '-' || c = '+' || c = '(' || c = ')' || c = '.'

/-- Phone pattern: only digits and common phone punctuation, with at
least seven digits. -/
def isPhoneToken (w : List Char) : Bool :=
  w.all isPhoneChar && 7 ≤ (w.filter Char.isDigit).length

/-- Best-effort classification of one token. -/
def classify (w : List Char) : Option PiiCategory :=
  if isEmailToken w then some .email
  else if isPhoneToken w then some .phone
  else none

/-- A PII Finding: (category, span, original-text), the span given by its
start offset and its original text (spec §3). -/
structure Finding where
  category : PiiCategory
  start : Nat
  text : List Char
deriving DecidableEq, Repr

/-- Scan the runs of a text, tracking each run's start offset, and emit a
finding for every run matching a PII pattern. -/
def scanChunks : Nat → List (List Char) → List Finding
  | _, [] => []
  | pos, w :: rest =>
      let tail := scanChunks (pos + w.length) rest
      match classify w with
      | some cat => ⟨cat, pos, w⟩ :: tail
      | none => tail

/-- Modelled from the spec: `scan(text) -> [Finding]`. -/
def scan (t : List Char) : List Finding :=
  scanChunks 0 (chunk t)

/-- The placeholder substituted for a matched span. -/
def placeholder : List Char :=
  "[REDACTED]".toList

/-- Replace every run whose span (start offset and original text) is
listed in the findings with the placeholder; all other runs are kept
byte-for-byte. -/
def redactChunks (fs : List Finding) : Nat → List (List Char) →
    List (List Char)
  | _, [] => []
  | pos, w :: rest =>
      (if fs.any (fun f => f.start == pos && f.text == w) then placeholder
       else w) :: redactChunks fs (pos + w.length) rest

/-- Modelled from the spec: `redact(text, findings) -> text`, replacing
the matched spans with the placeholder. -/
def redact (t : List Char) (fs : List Finding) : List Char :=
  (redactChunks fs 0 (chunk t)).flatten

/-- The per-run redaction map: a run matching a PII pattern becomes the
placeholder, any other run is untouched. -/
def redactRun (w : List Char) : List Char :=
  if (classify w).isSome then placeholder else w

/-- Whether `needle` occurs as a contiguous substring of `hay`. -/
def listContainsSub (needle : List Char) : List Char → Bool
  | [] => needle.isEmpty
  | c :: cs => needle.isPrefixOf (c :: cs) || listContainsSub needle cs

/-- The word/whitespace class of a run (its head's classification). -/
def chunkClass (ch : List Char) : Bool :=
  isWordChar (ch.headD ' ')

/-- Well-formed run decomposition: every run is nonempty and homogeneous,
and adjacent runs have different classes.  `chunk` produces exactly such
decompositions, and they are the fixed points of `chunk ∘ flatten`. -/
inductive ChunksWF : List (List Char) → Prop
  | nil : ChunksWF []
  | single {ch : List Char} (hne : ch ≠ [])
      (hhom : ∀ c ∈ ch, isWordChar c = chunkClass ch) : ChunksWF [ch]
  | cons {ch ch2 : List Char} {rest : List (List Char)} (hne : ch ≠ [])
      (hhom : ∀ c ∈ ch, isWordChar c = chunkClass ch)
      (halt : chunkClass ch ≠ chunkClass ch2)
      (htail : ChunksWF (ch2 :: rest)) : ChunksWF (ch :: ch2 :: rest)

/-! # Theorems -/

/-- `routerStep` only mutates the object on a `stop`. -/
theorem routerStep_of_ne_stop (r : LlmRouter) (op : RouterOp)
    (h : op ≠ RouterOp.stop) : routerStep r op = r := by
  cases op <;> simp [routerStep] at h ⊢

/-- A stub `LlmRouter` is untouched by any operation sequence that does not
contain `stop`. -/
theorem routerRun_of_no_stop (r : LlmRouter) (ops : List RouterOp)
    (h : RouterOp.stop ∉ ops) : routerRun r ops = r := by
  induction ops generalizing r with
  | nil => rfl
  | cons op rest ih =>
      have hop : op ≠ RouterOp.stop := fun he => h (he ▸ List.mem_cons_self op rest)
      have hrest : RouterOp.stop ∉ rest := fun hm => h (List.mem_cons_of_mem op hm)
      simp [routerRun, List.foldl_cons, routerStep_of_ne_stop r op hop] at *
      exact ih r hrest

/-- **C3**: when the compiled native module cannot be imported, constructing
`Runtime` or `LlmRouter` yields the non-functional stub: every stub
operation (`start_agent`, `stop_agent`, `get_metrics`, `stop`) succeeds
without contacting any server, `start_agent` always returns
`"stub-agent-id"`, and `LlmRouter` construction always succeeds with the
stored fields (it never raises an `Unavailable` error). -/
theorem stub_fallback_behavior (b : ℚ) (v : Bool) (p aid k u : String)
    (c : Nat) :
    noNetwork (Runtime.init b v).2 = true ∧
    ((Runtime.init b v).1.start_agent p).1 = "stub-agent-id" ∧
    noNetwork ((Runtime.init b v).1.start_agent p).2 = true ∧
    noNetwork ((Runtime.init b v).1.stop_agent aid).2 = true ∧
    noNetwork ((Runtime.init b v).1.get_metrics aid).2 = true ∧
    noNetwork (LlmRouter.init k u c).2 = true ∧
    (LlmRouter.init k u c).1 =
      { api_key := k, server_url := u, port := 8000, running := true } ∧
    noNetwork ((LlmRouter.init k u c).1.stop).2 = true :=
  ⟨rfl, rfl, rfl, rfl, rfl, rfl, rfl, rfl⟩

/-- **C5**: a stub `LlmRouter` constructed with api key `k` reports
`api_key = k`, `base_url = "http://127.0.0.1:" ++ port ++ "/v1"`, and
`is_running = true` from construction until `stop` is called (any sequence
of operations not containing `stop` leaves it running). -/
theorem llmrouter_introspection (k u : String) (c : Nat)
    (ops : List RouterOp) :
    (LlmRouter.init k u c).1.api_key = k ∧
    (LlmRouter.init k u c).1.base_url =
      "http://127.0.0.1:" ++ toString (LlmRouter.init k u c).1.port ++ "/v1" ∧
    (LlmRouter.init k u c).1.is_running = true ∧
    (RouterOp.stop ∉ ops →
      (routerRun (LlmRouter.init k u c).1 ops).is_running = true) := by
  refine ⟨rfl, rfl, rfl, fun h => ?_⟩
  rw [routerRun_of_no_stop _ _ h]
  rfl

/-- Witness for **C5** at a concrete key, URL and stop-free call
sequence. -/
theorem llmrouter_introspection_witness :
    (LlmRouter.init "ic_key" "https://api.iron-cage.io" 300).1.api_key =
      "ic_key" ∧
    (routerRun (LlmRouter.init "ic_key" "https://api.iron-cage.io" 300).1
      [RouterOp.get_base_url, RouterOp.get_is_running]).is_running = true := by
  have h := llmrouter_introspection "ic_key" "https://api.iron-cage.io" 300
    [RouterOp.get_base_url, RouterOp.get_is_running]
  exact ⟨h.1, h.2.2.2 (by decide)⟩

/-- **C6**: `stop` is idempotent — calling it twice raises no error and
yields the same state as calling it once, `is_running` is `false` after
either, and the context-manager `__exit__` invokes `stop`. -/
theorem llmrouter_stop_idempotent (r : LlmRouter) :
    (r.stop.1.stop).1 = r.stop.1 ∧
    r.stop.1.is_running = false ∧
    (r.stop.1.stop).1.is_running = false ∧
    r.exitCM = r.stop :=
  ⟨rfl, rfl, rfl, rfl⟩

/-- **C4, counterexample**: the metrics snapshot returned by the
`get_metrics` in the repository's sources (the stub) carries exactly the
keys `agent_id`, `status`, `budget_spent` and `pii_detections` — no key of
it mentions a breaker, so the snapshot does not contain the breaker state
per provider. -/
theorem get_metrics_no_breaker_state :
    ((Runtime.init 50 false).1.get_metrics "agent-1").1.map Prod.fst =
      ["agent_id", "status", "budget_spent", "pii_detections"] ∧
    ((Runtime.init 50 false).1.get_metrics "agent-1").1.all
      (fun kv => !listContainsSub "breaker".toList kv.1.toList) = true :=
  ⟨rfl, rfl⟩

/-- **C4, amended**: for every agent id, `get_metrics` returns a
point-in-time snapshot containing the spend so far (`budget_spent`, always
`0.0` in the stub) and the PII findings count (`pii_detections`, always
`0`), together with the agent id and a status; it contains no breaker
state per provider. -/
theorem get_metrics_snapshot (b : ℚ) (v : Bool) (aid : String) :
    ((Runtime.init b v).1.get_metrics aid).1.lookup "budget_spent" =
      some (.num 0) ∧
    ((Runtime.init b v).1.get_metrics aid).1.lookup "pii_detections" =
      some (.num 0) ∧
    ((Runtime.init b v).1.get_metrics aid).1.lookup "agent_id" =
      some (.str aid) ∧
    (∀ key val, (key, val) ∈ ((Runtime.init b v).1.get_metrics aid).1 →
      listContainsSub "breaker".toList key.toList = false) := by
  refine ⟨rfl, rfl, rfl, fun key val h => ?_⟩
  simp only [Runtime.get_metrics, Runtime.init, List.mem_cons,
    List.mem_singleton, Prod.mk.injEq] at h
  rcases h with ⟨hk, _⟩ | ⟨hk, _⟩ | ⟨hk, _⟩ | ⟨hk, _⟩ | h
  · subst hk; decide
  · subst hk; decide
  · subst hk; decide
  · subst hk; decide
  · cases h

/-- Witness for **C4 amended** at a concrete budget, agent id and key. -/
theorem get_metrics_snapshot_witness :
    ((Runtime.init 50 false).1.get_metrics "agent-1").1.lookup
      "budget_spent" = some (.num 0) ∧
    listContainsSub "breaker".toList "status".toList = false := by
  have h := get_metrics_snapshot 50 false "agent-1"
  exact ⟨h.1, h.2.2.2 "status" (.str "Running") (by decide)⟩

/-- **C8**: the quantity markers are never recognised.  The raw-string
patterns double every backslash, so the compiled regexes demand literal
backslash characters; on the test input `"Find leads qty=10"` — which the
module's own tests require to yield quantity `10` with the marker removed
— `_parse_quantity_from_query` finds no match and returns the query
unchanged with `None`. -/
theorem parse_quantity_marker_ignored :
    parse_quantity_from_query ("Find leads qty=10".toList) =
      .ok ("Find leads qty=10".toList, none) :=
  rfl

/-- One budget step never decreases spent-so-far. -/
theorem budgetStep_spent_le (s : BudgetState) (op : BudgetOp) :
    s.spent ≤ (budgetStep s op).spent := by
  cases op with
  | reserveOp e => exact le_refl _
  | settleOp c => exact Nat.le_add_right _ _

/-- One budget step never changes the ceiling. -/
theorem budgetStep_ceiling (s : BudgetState) (op : BudgetOp) :
    (budgetStep s op).ceiling = s.ceiling := by
  cases op <;> rfl

/-- Spent-so-far is monotone along any operation sequence. -/
theorem budgetRun_spent_le (s : BudgetState) (ops : List BudgetOp) :
    s.spent ≤ (budgetRun s ops).spent := by
  induction ops generalizing s with
  | nil => exact le_refl _
  | cons op rest ih =>
      exact le_trans (budgetStep_spent_le s op) (ih (budgetStep s op))

/-- The ceiling is fixed along any operation sequence. -/
theorem budgetRun_ceiling (s : BudgetState) (ops : List BudgetOp) :
    (budgetRun s ops).ceiling = s.ceiling := by
  induction ops generalizing s with
  | nil => rfl
  | cons op rest ih =>
      exact (ih (budgetStep s op)).trans (budgetStep_ceiling s op)

/-- **C1**: Budget State is monotone and enforcing — along every sequence
of settle/reserve operations spent-so-far never decreases and the ceiling
never changes, and once spent-so-far has reached the ceiling every
subsequent `reserve` call returns `Reject` (until a fresh session replaces
the state). -/
theorem budget_monotone_and_enforcing (s : BudgetState)
    (ops : List BudgetOp) :
    s.spent ≤ (budgetRun s ops).spent ∧
    (budgetRun s ops).ceiling = s.ceiling ∧
    (s.ceiling ≤ s.spent →
      ∀ estimate, reserve (budgetRun s ops) estimate = .Reject) := by
  refine ⟨budgetRun_spent_le s ops, budgetRun_ceiling s ops,
    fun h estimate => ?_⟩
  have hc : (budgetRun s ops).ceiling ≤ (budgetRun s ops).spent :=
    (budgetRun_ceiling s ops).le.trans
      (h.trans (budgetRun_spent_le s ops))
  simp [reserve, hc]

/-- Witness for **C1** at a concrete exhausted budget and operation
sequence. -/
theorem budget_monotone_and_enforcing_witness :
    reserve (budgetRun ⟨100, 100⟩ [.settleOp 5, .reserveOp 0]) 7 =
      .Reject :=
  (budget_monotone_and_enforcing ⟨100, 100⟩
    [.settleOp 5, .reserveOp 0]).2.2 (le_refl 100) 7

/-- Below the threshold, consecutive failures only advance the Closed
counter. -/
theorem runFailures_closed_of_lt (cfg : BreakerConfig) (ts : List Nat)
    (n : Nat) (h : n + ts.length < cfg.threshold) :
    runFailures cfg ts (.closed n) = .closed (n + ts.length) := by
  induction ts generalizing n with
  | nil => simp [runFailures]
  | cons t rest ih =>
      have hlt : ¬ cfg.threshold ≤ n + 1 := by
        simp only [List.length_cons] at h
        omega
      have : runFailures cfg (t :: rest) (.closed n) =
          runFailures cfg rest (recordFailure cfg t (.closed n)) := rfl
      rw [this]
      simp only [recordFailure, if_neg hlt]
      have h' : (n + 1) + rest.length < cfg.threshold := by
        simp only [List.length_cons] at h
        omega
      rw [ih (n + 1) h']
      congr 1
      simp
      omega

/-- Exactly at the threshold, the last failure of the run opens the
breaker. -/
theorem runFailures_opened_at_threshold (cfg : BreakerConfig)
    (ts : List Nat) (n : Nat) (hne : ts ≠ [])
    (h : n + ts.length = cfg.threshold) :
    ∃ u, runFailures cfg ts (.closed n) = .opened u := by
  induction ts generalizing n with
  | nil => exact absurd rfl hne
  | cons t rest ih =>
      have hstep : runFailures cfg (t :: rest) (.closed n) =
          runFailures cfg rest (recordFailure cfg t (.closed n)) := rfl
      cases rest with
      | nil =>
          have hth : cfg.threshold ≤ n + 1 := by
            simp only [List.length_cons, List.length_nil] at h
            omega
          refine ⟨t + cfg.cooldown, ?_⟩
          rw [hstep]
          simp [runFailures, recordFailure, if_pos hth]
      | cons t2 rest2 =>
          have hlt : ¬ cfg.threshold ≤ n + 1 := by
            simp only [List.length_cons] at h
            omega
          rw [hstep]
          simp only [recordFailure, if_neg hlt]
          exact ih (n + 1) (List.cons_ne_nil t2 rest2) (by
            simp only [List.length_cons] at h ⊢
            omega)

/-- **C2**: per-provider circuit breaking — starting from Closed, fewer
than `threshold` consecutive recorded failures leave the breaker Closed
and exactly `threshold` of them leave it Open; while Open and before the
cool-down expires, the gate rejects every call without letting it reach
the upstream transport; once the cool-down has elapsed the gate lets
exactly one call through as the HalfOpen trial, and rejects every further
call while that trial is in flight. -/
theorem circuit_breaker_behavior (cfg : BreakerConfig)
    (hth : 1 ≤ cfg.threshold) (ts : List Nat) :
    (ts.length < cfg.threshold →
      runFailures cfg ts (.closed 0) = .closed ts.length) ∧
    (ts.length = cfg.threshold →
      ∃ u, runFailures cfg ts (.closed 0) = .opened u) ∧
    (∀ u now, now < u → gate now (.opened u) = (.opened u, false)) ∧
    (∀ u now, u ≤ now → gate now (.opened u) = (.halfOpen true, true)) ∧
    (∀ now, gate now (.halfOpen true) = (.halfOpen true, false)) := by
  refine ⟨fun h => ?_, fun h => ?_, fun u now h => ?_, fun u now h => ?_,
    fun now => ?_⟩
  · have := runFailures_closed_of_lt cfg ts 0 (by omega)
    simpa using this
  · have hne : ts ≠ [] := by
      intro he
      rw [he] at h
      simp at h
      omega
    exact runFailures_opened_at_threshold cfg ts 0 hne (by omega)
  · simp [gate, Nat.not_le.mpr h]
  · simp [gate, h]
  · simp [gate]

/-- Witness for **C2** at threshold 2, cool-down 5 and two failures. -/
theorem circuit_breaker_behavior_witness :
    (∃ u, runFailures ⟨2, 5⟩ [0, 1] (.closed 0) = .opened u) ∧
    gate 3 (.opened 6) = (.opened 6, false) ∧
    gate 7 (.opened 6) = (.halfOpen true, true) ∧
    gate 8 (.halfOpen true) = (.halfOpen true, false) :=
  ⟨(circuit_breaker_behavior ⟨2, 5⟩ (by decide) [0, 1]).2.1 (by decide),
   (circuit_breaker_behavior ⟨2, 5⟩ (by decide) [0, 1]).2.2.1 6 3
     (by decide),
   (circuit_breaker_behavior ⟨2, 5⟩ (by decide) [0, 1]).2.2.2.1 6 7
     (by decide),
   (circuit_breaker_behavior ⟨2, 5⟩ (by decide) [0, 1]).2.2.2.2 8⟩

/-- The only fixed point of `dirname` is the root `[]`. -/
theorem dirname_eq_self_iff (p : List String) : dirname p = p ↔ p = [] := by
  constructor
  · intro h
    cases p with
    | nil => rfl
    | cons x xs =>
        have hlen := congrArg List.length h
        simp [dirname] at hlen
  · intro h
    subst h
    rfl

/-- With fuel at least one more than the number of path components, the
`_load_config` loop always returns an answer, and the answer is `true`
exactly when the secret file exists in some visited ancestor. -/
theorem load_config_loop_spec (fs : List String → Bool) (n : Nat) :
    ∀ p : List String, p.length ≤ n →
      ∃ b, load_config_loop fs (n + 1) p = some b ∧
        (b = true ↔ ∃ i, i ≤ p.length ∧ fs (ancestor p i) = true) := by
  induction n with
  | zero =>
      intro p hp
      have hp0 : p = [] := List.length_eq_zero.mp (Nat.le_zero.mp hp)
      subst hp0
      by_cases hfs : fs [] = true
      · exact ⟨true, by simp [load_config_loop, hfs], by
          simp only [true_iff]
          exact ⟨0, le_refl 0, hfs⟩⟩
      · refine ⟨false, by simp [load_config_loop, hfs, dirname], ?_⟩
        simp only [Bool.false_eq_true, false_iff, not_exists]
        intro i ⟨hi, hfi⟩
        have : i = 0 := Nat.le_zero.mp (by simpa using hi)
        subst this
        exact hfs hfi
  | succ n ih =>
      intro p hp
      by_cases hfs : fs p = true
      · exact ⟨true, by simp [load_config_loop, hfs],
          by simp only [true_iff]; exact ⟨0, Nat.zero_le _, hfs⟩⟩
      · cases hp0 : p with
        | nil =>
            subst hp0
            refine ⟨false, by simp [load_config_loop, hfs, dirname], ?_⟩
            simp only [Bool.false_eq_true, false_iff, not_exists]
            intro i ⟨hi, hfi⟩
            have : i = 0 := Nat.le_zero.mp (by simpa using hi)
            subst this
            exact hfs hfi
        | cons x xs =>
            subst hp0
            have hd : dirname (x :: xs) ≠ x :: xs := by
              intro h
              exact (List.cons_ne_nil x xs) ((dirname_eq_self_iff _).mp h)
            have hlen : (dirname (x :: xs)).length ≤ n := by
              simp only [dirname, List.length_dropLast, List.length_cons]
                at hp ⊢
              omega
            obtain ⟨b, hb, hiff⟩ := ih (dirname (x :: xs)) hlen
            refine ⟨b, ?_, ?_⟩
            · simp only [load_config_loop, hfs, if_false, if_neg hd,
                Bool.false_eq_true]
              exact hb
            · rw [hiff]
              constructor
              · intro ⟨i, hi, hfi⟩
                refine ⟨i + 1, ?_, ?_⟩
                · simp only [dirname, List.length_dropLast,
                    List.length_cons] at hi ⊢
                  omega
                · rw [ancestor, Function.iterate_succ_apply]
                  exact hfi
              · intro ⟨i, hi, hfi⟩
                cases i with
                | zero =>
                    exact absurd hfi (by simpa [ancestor] using hfs)
                | succ j =>
                    refine ⟨j, ?_, ?_⟩
                    · simp only [dirname, List.length_dropLast,
                        List.length_cons] at hi ⊢
                      omega
                    · rw [ancestor, ← Function.iterate_succ_apply]
                      exact hfi

/-- **C10**: `_load_config` terminates for every starting directory — with
fuel one more than the component count, the loop that walks up the
directory tree always produces an answer, `true` exactly when the secret
file exists at one of the visited ancestors (the start, its parents, down
to the filesystem root, which is the fixed point of `dirname`). -/
theorem load_config_terminates (fs : List String → Bool)
    (start : List String) :
    ∃ b, load_config fs start = some b ∧
      (b = true ↔ ∃ i, i ≤ start.length ∧ fs (ancestor start i) = true) :=
  load_config_loop_spec fs start.length start (le_refl _)

/-- **C9**: `search_leads` is total at its interface — for every request
and every outcome of the upstream call it returns a string, and the string
is one of the four shapes: a `"System Error"` rendering of a caught
exception, an `"Apollo Search Error"` for a non-200 status, the JSON
message for an empty result set, or the JSON array of cleaned leads. -/
theorem search_leads_total (jt : String) (ind loc : Option String)
    (q : Nat) (outcome : PostOutcome) :
    (∃ m, search_leads jt ind loc q outcome = "System Error: " ++ m) ∨
    (∃ (st : Nat) (txt : String), search_leads jt ind loc q outcome =
      "Apollo Search Error " ++ toString st ++ ": " ++ txt) ∨
    search_leads jt ind loc q outcome = noLeadsJson ∨
    (∃ ps, ps ≠ [] ∧
      search_leads jt ind loc q outcome = cleanResultsJson ps) := by
  cases outcome with
  | raises m => exact Or.inl ⟨m, rfl⟩
  | returns status text body =>
      by_cases hst : status = 200
      · subst hst
        cases body with
        | error m =>
            exact Or.inl ⟨m, by simp [search_leads]⟩
        | ok people =>
            by_cases hp : people.isEmpty
            · exact Or.inr (Or.inr (Or.inl (by simp [search_leads, hp])))
            · refine Or.inr (Or.inr (Or.inr ⟨people, ?_, ?_⟩))
              · intro he
                subst he
                simp at hp
              · simp [search_leads, hp]
      · exact Or.inr (Or.inl ⟨status, text, by simp [search_leads, hst]⟩)

/-- Joining the runs restores the original text. -/
theorem chunk_flatten (t : List Char) : (chunk t).flatten = t := by
  induction t with
  | nil => rfl
  | cons c cs ih =>
      cases h : chunk cs with
      | nil =>
          rw [h] at ih
          simp only [List.flatten_nil] at ih
          simp [chunk, h, ← ih]
      | cons ch rest =>
          rw [h] at ih
          cases ch with
          | nil =>
              simp only [chunk, h]
              simpa using ih
          | cons d ds =>
              simp only [chunk, h]
              split
              · simpa using ih
              · simpa using ih

/-- `chunk` of a nonempty text starts with a run led by the first
character. -/
theorem chunk_cons_head (c : Char) (cs : List Char) :
    ∃ ds rest, chunk (c :: cs) = (c :: ds) :: rest := by
  cases h : chunk cs with
  | nil => exact ⟨[], [], by simp [chunk, h]⟩
  | cons ch rest =>
      cases ch with
      | nil => exact ⟨[], [] :: rest, by simp [chunk, h]⟩
      | cons d ds =>
          by_cases hcd : (isWordChar c == isWordChar d) = true
          · exact ⟨d :: ds, rest, by simp [chunk, h, hcd]⟩
          · exact ⟨[], (d :: ds) :: rest, by simp [chunk, h, hcd]⟩

/-- `chunk` only returns the empty decomposition on empty text. -/
theorem chunk_eq_nil_iff (t : List Char) : chunk t = [] ↔ t = [] := by
  constructor
  · intro h
    have := chunk_flatten t
    rw [h] at this
    simpa using this.symm
  · intro h
    subst h
    rfl

/-- `chunk` produces a well-formed run decomposition. -/
theorem chunksWF_chunk (t : List Char) : ChunksWF (chunk t) := by
  induction t with
  | nil => exact .nil
  | cons c cs ih =>
      cases h : chunk cs with
      | nil =>
          simp only [chunk, h]
          exact .single (List.cons_ne_nil c []) (by
            intro x hx
            simp only [List.mem_singleton] at hx
            subst hx
            rfl)
      | cons ch rest =>
          rw [h] at ih
          cases ch with
          | nil => cases ih with
              | single hne _ => exact absurd rfl hne
              | cons hne _ _ _ => exact absurd rfl hne
          | cons d ds =>
              simp only [chunk, h]
              have hclsd : chunkClass (d :: ds) = isWordChar d := rfl
              split
              next heq =>
                have hcd : isWordChar c = isWordChar d := by
                  simpa using heq
                have hhom2 : ∀ x ∈ d :: ds,
                    isWordChar x = chunkClass (d :: ds) := by
                  cases ih with
                  | single _ hhom => exact hhom
                  | cons _ hhom _ _ => exact hhom
                have hhom' : ∀ x ∈ c :: d :: ds,
                    isWordChar x = chunkClass (c :: d :: ds) := by
                  intro x hx
                  have hcls : chunkClass (c :: d :: ds) = isWordChar c := rfl
                  rcases List.mem_cons.mp hx with hx0 | hx1
                  · subst hx0; exact hcls.symm
                  · rw [hcls, hcd]
                    rw [hclsd] at hhom2
                    exact hhom2 x hx1
                cases ih with
                | single hne hhom =>
                    exact .single (List.cons_ne_nil c (d :: ds)) hhom'
                | cons hne hhom halt htail =>
                    refine .cons (List.cons_ne_nil c (d :: ds)) hhom' ?_ htail
                    show chunkClass (c :: d :: ds) ≠ chunkClass _
                    have : chunkClass (c :: d :: ds) = isWordChar c := rfl
                    rw [this, hcd, ← hclsd]
                    exact halt
              next hne =>
                have hcd : isWordChar c ≠ isWordChar d := by
                  simpa using hne
                refine .cons (List.cons_ne_nil c []) ?_ ?_ ih
                · intro x hx
                  simp only [List.mem_singleton] at hx
                  subst hx
                  rfl
                · show chunkClass [c] ≠ chunkClass (d :: ds)
                  rw [hclsd]
                  exact hcd

/-- The head run of a well-formed decomposition is nonempty. -/
theorem ChunksWF.head_ne_nil {ch : List Char} {rest : List (List Char)}
    (h : ChunksWF (ch :: rest)) : ch ≠ [] := by
  cases h with
  | single hne _ => exact hne
  | cons hne _ _ _ => exact hne

/-- The head run of a well-formed decomposition is homogeneous. -/
theorem ChunksWF.head_homog {ch : List Char} {rest : List (List Char)}
    (h : ChunksWF (ch :: rest)) : ∀ c ∈ ch, isWordChar c = chunkClass ch := by
  cases h with
  | single _ hhom => exact hhom
  | cons _ hhom _ _ => exact hhom

/-- The tail of a well-formed decomposition is well-formed. -/
theorem ChunksWF.tail {ch : List Char} {rest : List (List Char)}
    (h : ChunksWF (ch :: rest)) : ChunksWF rest := by
  cases h with
  | single _ _ => exact .nil
  | cons _ _ _ htail => exact htail

/-- One-step unfolding of `chunk` on a cons cell. -/
theorem chunk_cons (c : Char) (cs : List Char) :
    chunk (c :: cs) =
      match chunk cs with
      | [] => [[c]]
      | [] :: rest => [c] :: [] :: rest
      | (d :: ds) :: rest =>
          if isWordChar c == isWordChar d then (c :: d :: ds) :: rest
          else [c] :: (d :: ds) :: rest := rfl

/-- Chunking a homogeneous nonempty run followed by text of a different
leading class keeps the run whole. -/
theorem chunk_append_of_homog (ch : List Char) (v : Bool) (s : List Char)
    (hne : ch ≠ []) (hhom : ∀ c ∈ ch, isWordChar c = v)
    (hs : ∀ d, s.head? = some d → isWordChar d ≠ v) :
    chunk (ch ++ s) = ch :: chunk s := by
  induction ch with
  | nil => exact absurd rfl hne
  | cons c tl ih =>
      cases tl with
      | nil =>
          cases s with
          | nil => simp [chunk]
          | cons d s' =>
              obtain ⟨ds, rest, hcr⟩ := chunk_cons_head d s'
              have hd : isWordChar d ≠ v := hs d rfl
              have hc : isWordChar c = v := hhom c (List.mem_cons_self c [])
              have hcd : (isWordChar c == isWordChar d) = false := by
                rw [hc]
                simp only [beq_eq_false_iff_ne, ne_eq]
                exact fun he => hd he.symm
              show chunk (c :: d :: s') = [c] :: chunk (d :: s')
              rw [chunk_cons c (d :: s'), hcr]
              simp only [hcd, Bool.false_eq_true, if_false]
      | cons c2 tl2 =>
          have hhom2 : ∀ x ∈ c2 :: tl2, isWordChar x = v := by
            intro x hx
            exact hhom x (List.mem_cons_of_mem c hx)
          have ih' := ih (List.cons_ne_nil c2 tl2) hhom2
          have hc : isWordChar c = v := hhom c (List.mem_cons_self c _)
          have hc2 : isWordChar c2 = v := hhom2 c2 (List.mem_cons_self c2 _)
          have hcc2 : (isWordChar c == isWordChar c2) = true := by
            rw [hc, hc2]
            exact beq_self_eq_true v
          simp only [List.cons_append] at ih' ⊢
          rw [chunk_cons c (c2 :: (tl2 ++ s)), ih']
          simp only [hcc2, if_true]

/-- A well-formed decomposition is the chunking of its own flattening. -/
theorem chunk_flatten_of_WF (L : List (List Char)) (h : ChunksWF L) :
    chunk L.flatten = L := by
  induction L with
  | nil => rfl
  | cons ch rest ih =>
      have hne := h.head_ne_nil
      have hhom := h.head_homog
      have htail := h.tail
      have hs : ∀ d, rest.flatten.head? = some d →
          isWordChar d ≠ chunkClass ch := by
        intro d hd
        cases rest with
        | nil => simp at hd
        | cons ch2 rest2 =>
            have hne2 := htail.head_ne_nil
            have halt : chunkClass ch ≠ chunkClass ch2 := by
              cases h with
              | cons _ _ halt _ => exact halt
            cases ch2 with
            | nil => exact absurd rfl hne2
            | cons d2 ds2 =>
                simp only [List.flatten_cons, List.cons_append,
                  List.head?_cons, Option.some.injEq] at hd
                intro he
                apply halt
                show chunkClass ch = chunkClass (d2 :: ds2)
                have hcls2 : chunkClass (d2 :: ds2) = isWordChar d2 := rfl
                rw [hcls2, hd, he]
      rw [List.flatten_cons,
        chunk_append_of_homog ch (chunkClass ch) rest.flatten hne hhom hs,
        ih htail]

/-- Every run of a well-formed decomposition is nonempty. -/
theorem ChunksWF.mem_ne_nil {L : List (List Char)} (h : ChunksWF L) :
    ∀ ch ∈ L, ch ≠ [] := by
  induction L with
  | nil => intro ch hch; cases hch
  | cons w rest ih =>
      intro ch hch
      rcases List.mem_cons.mp hch with h0 | h1
      · subst h0; exact h.head_ne_nil
      · exact ih h.tail ch h1

/-- Findings emitted by `scanChunks` start at or after the base offset. -/
theorem scanChunks_start_ge (L : List (List Char)) :
    ∀ pos f, f ∈ scanChunks pos L → pos ≤ f.start := by
  induction L with
  | nil => intro pos f h; cases h
  | cons w rest ih =>
      intro pos f h
      cases hc : classify w with
      | some cat =>
          simp only [scanChunks, hc] at h
          rcases List.mem_cons.mp h with h0 | h1
          · subst h0; exact le_refl pos
          · exact le_trans (Nat.le_add_right pos w.length)
              (ih (pos + w.length) f h1)
      | none =>
          simp only [scanChunks, hc] at h
          exact le_trans (Nat.le_add_right pos w.length)
            (ih (pos + w.length) f h)

/-- A finding whose start lies strictly before the current offset never
matches any run from that offset on. -/
theorem redactChunks_drop_lt (f : Finding) (fs : List Finding) :
    ∀ (L : List (List Char)) (pos : Nat), f.start < pos →
      redactChunks (f :: fs) pos L = redactChunks fs pos L := by
  intro L
  induction L with
  | nil => intro pos _; rfl
  | cons w rest ih =>
      intro pos h
      have hf : (f.start == pos && f.text == w) = false := by
        have hs : (f.start == pos) = false := by
          simp only [beq_eq_false_iff_ne, ne_eq]
          omega
        simp [hs]
      simp only [redactChunks, List.any_cons, hf, Bool.false_or]
      congr 1
      exact ih (pos + w.length) (lt_of_lt_of_le h (Nat.le_add_right _ _))

/-- Redacting with no findings changes nothing. -/
theorem redactChunks_nil (L : List (List Char)) :
    ∀ pos, redactChunks [] pos L = L := by
  induction L with
  | nil => intro pos; rfl
  | cons w rest ih =>
      intro pos
      simp only [redactChunks, List.any_nil, if_neg Bool.false_ne_true]
      rw [ih]

/-- A run list with no PII runs scans to no findings. -/
theorem scanChunks_eq_nil_of_none (L : List (List Char))
    (h : ∀ ch ∈ L, classify ch = none) :
    ∀ pos, scanChunks pos L = [] := by
  induction L with
  | nil => intro pos; rfl
  | cons w rest ih =>
      intro pos
      have hw : classify w = none := h w (List.mem_cons_self w rest)
      simp only [scanChunks, hw]
      exact ih (fun ch hch => h ch (List.mem_cons_of_mem w hch)) _

/-- The placeholder contains no PII pattern. -/
theorem classify_placeholder : classify placeholder = none := by
  decide

/-- Redacted runs contain no PII pattern: either the run was replaced by
the placeholder, or it matched no pattern to begin with. -/
theorem classify_redactRun (ch : List Char) :
    classify (redactRun ch) = none := by
  unfold redactRun
  cases hc : classify ch with
  | some cat => simp only [hc, Option.isSome_some, if_true]
                exact classify_placeholder
  | none => simp only [hc, Option.isSome_none, Bool.false_eq_true, if_false]

/-- An email token contains its `@`. -/
theorem mem_at_of_isEmailToken (w : List Char) (h : isEmailToken w = true) :
    '@' ∈ w := by
  unfold isEmailToken at h
  rw [List.span_eq_take_drop] at h
  dsimp only at h
  split at h
  next dom heq =>
      have hsub : (w.dropWhile (fun c => !(c = '@'))).Sublist w :=
        List.dropWhile_sublist _
      rw [heq] at hsub
      exact hsub.mem (List.mem_cons_self '@' dom)
  next => exact absurd h (by simp)

/-- A phone token contains a digit. -/
theorem exists_digit_of_isPhoneToken (w : List Char)
    (h : isPhoneToken w = true) : ∃ c ∈ w, c.isDigit = true := by
  unfold isPhoneToken at h
  have h7 : 7 ≤ (w.filter Char.isDigit).length :=
    (Bool.and_eq_true .. |>.mp h).2 |> of_decide_eq_true
  cases hf : w.filter Char.isDigit with
  | nil => rw [hf] at h7; simp at h7
  | cons a tl =>
      have ha : a ∈ w.filter Char.isDigit := by
        rw [hf]; exact List.mem_cons_self a tl
      exact ⟨a, (List.mem_filter.mp ha).1, (List.mem_filter.mp ha).2⟩

/-- Digits are word characters. -/
theorem isWordChar_of_isDigit (c : Char) (h : c.isDigit = true) :
    isWordChar c = true := by
  unfold isWordChar
  by_contra hw
  have hw' : c.isWhitespace = true := by
    cases hb : c.isWhitespace
    · rw [hb] at hw; exact absurd rfl hw
    · rfl
  unfold Char.isWhitespace at hw'
  simp only [Bool.or_eq_true, decide_eq_true_eq] at hw'
  rcases hw' with ((h1 | h1) | h1) | h1 <;> subst h1 <;>
    exact absurd h (by decide)

/-- A homogeneous run matching a PII pattern is a word run. -/
theorem chunkClass_of_classify_some (ch : List Char)
    (hhom : ∀ c ∈ ch, isWordChar c = chunkClass ch)
    (hc : (classify ch).isSome = true) : chunkClass ch = true := by
  unfold classify at hc
  by_cases he : isEmailToken ch = true
  · have hat := mem_at_of_isEmailToken ch he
    rw [← hhom '@' hat]
    decide
  · by_cases hp : isPhoneToken ch = true
    · obtain ⟨c, hcmem, hcd⟩ := exists_digit_of_isPhoneToken ch hp
      rw [← hhom c hcmem]
      exact isWordChar_of_isDigit c hcd
    · simp [he, hp] at hc

/-- A run with no PII pattern is redacted to itself. -/
theorem redactRun_of_none (ch : List Char) (h : classify ch = none) :
    redactRun ch = ch := by
  simp [redactRun, h]

/-- A run matching a PII pattern is redacted to the placeholder. -/
theorem redactRun_of_some (ch : List Char)
    (h : (classify ch).isSome = true) : redactRun ch = placeholder := by
  simp [redactRun, h]

/-- Redaction preserves the run's word/whitespace class. -/
theorem chunkClass_redactRun (ch : List Char)
    (hhom : ∀ c ∈ ch, isWordChar c = chunkClass ch) :
    chunkClass (redactRun ch) = chunkClass ch := by
  cases hc : (classify ch).isSome with
  | false =>
      rw [redactRun_of_none ch (Option.not_isSome_iff_eq_none.mp (by
        rw [hc]; exact Bool.false_ne_true))]
  | true =>
      rw [redactRun_of_some ch hc, chunkClass_of_classify_some ch hhom hc]
      rfl

/-- Redaction preserves nonemptiness of a run. -/
theorem redactRun_ne_nil (ch : List Char) (h : ch ≠ []) :
    redactRun ch ≠ [] := by
  cases hc : (classify ch).isSome with
  | false =>
      rw [redactRun_of_none ch (Option.not_isSome_iff_eq_none.mp (by
        rw [hc]; exact Bool.false_ne_true))]
      exact h
  | true =>
      rw [redactRun_of_some ch hc]
      decide

/-- Redaction preserves homogeneity of a run. -/
theorem redactRun_homog (ch : List Char)
    (hhom : ∀ c ∈ ch, isWordChar c = chunkClass ch) :
    ∀ c ∈ redactRun ch, isWordChar c = chunkClass (redactRun ch) := by
  cases hc : (classify ch).isSome with
  | false =>
      rw [redactRun_of_none ch (Option.not_isSome_iff_eq_none.mp (by
        rw [hc]; exact Bool.false_ne_true))]
      exact hhom
  | true =>
      rw [redactRun_of_some ch hc]
      decide

/-- Redaction maps a well-formed decomposition to a well-formed
decomposition. -/
theorem ChunksWF.map_redactRun {L : List (List Char)} (h : ChunksWF L) :
    ChunksWF (L.map redactRun) := by
  induction h with
  | nil => exact .nil
  | single hne hhom =>
      exact .single (redactRun_ne_nil _ hne) (redactRun_homog _ hhom)
  | cons hne hhom halt htail ih =>
      simp only [List.map_cons] at ih ⊢
      refine .cons (redactRun_ne_nil _ hne) (redactRun_homog _ hhom) ?_ ih
      rw [chunkClass_redactRun _ hhom, chunkClass_redactRun _ htail.head_homog]
      exact halt

/-- Redacting the runs against exactly the findings of their own scan
replaces exactly the PII runs with the placeholder. -/
theorem redactChunks_scanChunks (L : List (List Char))
    (hne : ∀ ch ∈ L, ch ≠ []) :
    ∀ pos, redactChunks (scanChunks pos L) pos L = L.map redactRun := by
  induction L with
  | nil => intro pos; rfl
  | cons w rest ih =>
      intro pos
      have hwne : w ≠ [] := hne w (List.mem_cons_self w rest)
      have hrest : ∀ ch ∈ rest, ch ≠ [] :=
        fun ch hch => hne ch (List.mem_cons_of_mem w hch)
      have hlen : 1 ≤ w.length := List.length_pos.mpr hwne
      cases hc : classify w with
      | some cat =>
          simp only [scanChunks, hc, redactChunks, List.map_cons]
          congr 1
          · have hhead : ((⟨cat, pos, w⟩ : Finding).start == pos &&
                (⟨cat, pos, w⟩ : Finding).text == w) = true := by
              simp
            simp [List.any_cons, hhead, redactRun, hc]
          · rw [redactChunks_drop_lt ⟨cat, pos, w⟩ _ rest (pos + w.length)
              (by simp only; omega)]
            exact ih hrest (pos + w.length)
      | none =>
          simp only [scanChunks, hc, redactChunks, List.map_cons]
          congr 1
          · have hfalse : (scanChunks (pos + w.length) rest).any
                (fun f => f.start == pos && f.text == w) = false := by
              rw [List.any_eq_false]
              intro f hf
              have hge := scanChunks_start_ge rest (pos + w.length) f hf
              simp only [Bool.and_eq_true, beq_iff_eq, not_and]
              intro hstart
              omega
            simp [hfalse, redactRun, hc]
          · exact ih hrest (pos + w.length)

/-- **C7, counterexample**: with an arbitrary findings list — here the
empty list over a text containing an email address — redaction is not
idempotent: the first redaction changes nothing, the scan of its output
still finds the address, and the second redaction changes the text. -/
theorem redact_not_idempotent_for_arbitrary_findings :
    ¬ (redact (redact ("mail a@b.com now".toList) [])
        (scan (redact ("mail a@b.com now".toList) [])) =
       redact ("mail a@b.com now".toList) []) := by
  decide

/-- **C7, amended**: for the findings produced by `scan`, redaction is
idempotent and frame-preserving — redacting the already-redacted text
against the findings of the redacted text changes nothing, and every run
outside the matched spans appears unchanged, in place, in the redacted
text. -/
theorem redact_scan_idempotent (t : List Char) :
    redact (redact t (scan t)) (scan (redact t (scan t))) =
      redact t (scan t) ∧
    (∀ (i : Nat) (ch : List Char), (chunk t)[i]? = some ch →
      classify ch = none →
      (chunk (redact t (scan t)))[i]? = some ch) := by
  have hWF := chunksWF_chunk t
  have hne := hWF.mem_ne_nil
  have hA : redact t (scan t) = ((chunk t).map redactRun).flatten := by
    rw [redact, scan, redactChunks_scanChunks (chunk t) hne 0]
  have hWFmap := hWF.map_redactRun
  have hB : chunk (redact t (scan t)) = (chunk t).map redactRun := by
    rw [hA, chunk_flatten_of_WF _ hWFmap]
  have hC : scan (redact t (scan t)) = [] := by
    rw [scan, hB]
    exact scanChunks_eq_nil_of_none _ (fun ch hch => by
      rcases List.mem_map.mp hch with ⟨w, _, rfl⟩
      exact classify_redactRun w) 0
  constructor
  · rw [hC, redact, redactChunks_nil, chunk_flatten]
  · intro i ch hi hcl
    rw [hB, List.getElem?_map, hi]
    show some (redactRun ch) = some ch
    rw [redactRun_of_none ch hcl]

/-- Witness for **C7 amended** at a concrete text and non-PII run. -/
theorem redact_scan_idempotent_witness :
    (chunk (redact ("mail a@b.com now".toList)
      (scan ("mail a@b.com now".toList))))[0]? = some ("mail".toList) :=
  (redact_scan_idempotent ("mail a@b.com now".toList)).2 0 ("mail".toList)
    (by decide) (by decide)

end IronCage
